import Mathlib

/-!
Verification of the poker-deck library (`src/lib.rs`).

The Rust source is shallowly embedded below.  Machine integers (`u8`,
`u16`) are modelled as `Nat`; every arithmetic operation performed by the
source on those types stays far below the respective overflow bounds
(bitmask values use at most bit 13), so the embedding is exact.
`Vec` becomes `List` (push/pop at the list's end), and the two `HashMap`
frequency tables become count functions; the places where the source
iterates over a hash map are parametrised by an explicit iteration order
so that claims about iteration-order independence can be stated.
-/

set_option maxHeartbeats 1000000

/-- The four suits, in the source's declaration order. -/
inductive Suit where
  | Clubs
  | Diamonds
  | Hearts
  | Spades
deriving DecidableEq

/-- The thirteen ranks, in the source's declaration order. -/
inductive Rank where
  | Two
  | Three
  | Four
  | Five
  | Six
  | Seven
  | Eight
  | Nine
  | Ten
  | Jack
  | Queen
  | King
  | Ace
deriving DecidableEq

/-- Discriminant of a `Rank` (the value Rust's derived `Ord` compares). -/
def Rank.toNat : Rank → Nat
  | .Two => 0
  | .Three => 1
  | .Four => 2
  | .Five => 3
  | .Six => 4
  | .Seven => 5
  | .Eight => 6
  | .Nine => 7
  | .Ten => 8
  | .Jack => 9
  | .Queen => 10
  | .King => 11
  | .Ace => 12

/-- `Rank::score`: the 1..=13 score of a rank. -/
def Rank.score : Rank → Nat
  | .Two => 1
  | .Three => 2
  | .Four => 3
  | .Five => 4
  | .Six => 5
  | .Seven => 6
  | .Eight => 7
  | .Nine => 8
  | .Ten => 9
  | .Jack => 10
  | .Queen => 11
  | .King => 12
  | .Ace => 13

/-- `Rank::id`: the score → rank conversion.  Out-of-range input panics in
the source; it is unreachable in every call site, and is modelled here by
an arbitrary junk value. -/
def Rank.id : Nat → Rank
  | 1 => .Two
  | 2 => .Three
  | 3 => .Four
  | 4 => .Five
  | 5 => .Six
  | 6 => .Seven
  | 7 => .Eight
  | 8 => .Nine
  | 9 => .Ten
  | 10 => .Jack
  | 11 => .Queen
  | 12 => .King
  | 13 => .Ace
  | _ => .Two

/-- `Suit::iter()` order. -/
def allSuits : List Suit := [.Clubs, .Diamonds, .Hearts, .Spades]

/-- `Rank::iter()` order. -/
def allRanks : List Rank :=
  [.Two, .Three, .Four, .Five, .Six, .Seven, .Eight, .Nine, .Ten, .Jack,
   .Queen, .King, .Ace]

/-- A playing card (`Card { rank, suit }`). -/
structure Card where
  rank : Rank
  suit : Suit
deriving DecidableEq

/-- `Card::score`. -/
def Card.score (c : Card) : Nat := c.rank.score

/-- The deck (`Deck { cards, dealt }`): `cards` are the undealt cards in
`Vec` order (top of the deck is the last element), `dealt` the dealt ones. -/
structure Deck where
  cards : List Card
  dealt : List Card
deriving DecidableEq

/-- `Deck::new()`: one card of each rank × suit pair, ranks outer,
suits inner, and an empty dealt pile. -/
def Deck.new : Deck :=
  { cards := allRanks.flatMap (fun r => allSuits.map (fun s => ⟨r, s⟩))
    dealt := [] }

/-- The loop body of `Deck::draw`: repeatedly pop a card off the end of
`cards`, pushing it onto `dealt` and onto the returned vector.  The `none`
result models the `panic!("Deck is empty!")` taken when the deck runs out;
the returned `Deck` is the state at the moment the function exits, which
on a panic is the partially drawn state. -/
def Deck.drawLoop : Nat → Deck → List Card → Option (List Card) × Deck
  | 0, d, acc => (some acc, d)
  | n + 1, d, acc =>
    match d.cards.getLast? with
    | some card =>
        Deck.drawLoop n ⟨d.cards.dropLast, d.dealt ++ [card]⟩ (acc ++ [card])
    | none => (none, d)

/-- `Deck::draw(nr)`. -/
def Deck.draw (nr : Nat) (d : Deck) : Option (List Card) × Deck :=
  Deck.drawLoop nr d []

/-- `Deck::reset()`: `self.cards.append(&mut self.dealt)` moves every
dealt card to the end of `cards` and leaves `dealt` empty. -/
def Deck.reset (d : Deck) : Deck :=
  ⟨d.cards ++ d.dealt, []⟩

/-- The ten hand categories (`HandRanking`), in the source's declaration
order, with their kicker payloads.  Masks are the `u16` bitmask values. -/
inductive HandRanking where
  | HighCard (mask : Nat)
  | OnePair (r : Rank) (mask : Nat)
  | TwoPair (hi lo kick : Rank)
  | Set (r : Rank) (mask : Nat)
  | Straight (r : Rank)
  | Flush (mask : Nat)
  | FullHouse (trips pairr : Rank)
  | Quads (quad kick : Rank)
  | StraightFlush (r : Rank)
  | RoyalFlush
deriving DecidableEq

/-- Variant discriminant of a `HandRanking`, as used by Rust's derived
`PartialOrd` when the two variants differ. -/
def HandRanking.ctorIdx : HandRanking → Nat
  | .HighCard _ => 0
  | .OnePair _ _ => 1
  | .TwoPair _ _ _ => 2
  | .Set _ _ => 3
  | .Straight _ => 4
  | .Flush _ => 5
  | .FullHouse _ _ => 6
  | .Quads _ _ => 7
  | .StraightFlush _ => 8
  | .RoyalFlush => 9

/-- Rust's derived `Ord` on `Rank` compares discriminants. -/
def Rank.cmp (a b : Rank) : Ordering := compare a.toNat b.toNat

/-- Rust's derived `PartialOrd` on `HandRanking`: discriminant first,
then, for equal variants, the payload fields left to right.  The payload
comparison never returns "incomparable", so it is modelled directly as a
total `Ordering`. -/
def HandRanking.cmp : HandRanking → HandRanking → Ordering
  | .HighCard m1, .HighCard m2 => compare m1 m2
  | .OnePair r1 m1, .OnePair r2 m2 => (r1.cmp r2).then (compare m1 m2)
  | .TwoPair a1 b1 c1, .TwoPair a2 b2 c2 =>
      ((a1.cmp a2).then (b1.cmp b2)).then (c1.cmp c2)
  | .Set r1 m1, .Set r2 m2 => (r1.cmp r2).then (compare m1 m2)
  | .Straight r1, .Straight r2 => r1.cmp r2
  | .Flush m1, .Flush m2 => compare m1 m2
  | .FullHouse a1 b1, .FullHouse a2 b2 => (a1.cmp a2).then (b1.cmp b2)
  | .Quads a1 b1, .Quads a2 b2 => (a1.cmp a2).then (b1.cmp b2)
  | .StraightFlush r1, .StraightFlush r2 => r1.cmp r2
  | .RoyalFlush, .RoyalFlush => .eq
  | a, b => compare a.ctorIdx b.ctorIdx

/-- The `<` of the derived `PartialOrd`. -/
def HandRanking.lt (a b : HandRanking) : Prop := HandRanking.cmp a b = .lt

/-- The `>` of the derived `PartialOrd`. -/
def HandRanking.gt (a b : HandRanking) : Prop := HandRanking.cmp a b = .gt

instance (a b : HandRanking) : Decidable (HandRanking.lt a b) := by
  unfold HandRanking.lt; infer_instance

instance (a b : HandRanking) : Decidable (HandRanking.gt a b) := by
  unfold HandRanking.gt; infer_instance

/-- Fuel-driven core of `bits_set`.  One unit of fuel is spent per loop
iteration; the fuel argument only serves to make the recursion structural,
and `bits_set` always supplies enough of it. -/
def bitsSetGo : Nat → Nat → Nat
  | 0, _ => 0
  | fuel + 1, m => if m = 0 then 0 else bitsSetGo fuel (m &&& (m - 1)) + 1

/-- `Hand::bits_set`: population count by repeatedly clearing the lowest
set bit.  The source's `while` loop runs at most `m` times, so fuel `m`
is always sufficient. -/
def bits_set (m : Nat) : Nat := bitsSetGo m m

/-- Fuel-driven core of `msbIdx`. -/
def msbIdxGo : Nat → Nat → Nat
  | 0, _ => 0
  | fuel + 1, m => if m < 2 then 0 else msbIdxGo fuel (m / 2) + 1

/-- Index of the most significant set bit (⌊log₂ m⌋, and 0 for m = 0).
This models the source's `(bitmask as f64).log2() as u8`: for the
`u16` arguments the source feeds it, the `f64` logarithm truncated towards
zero is exactly the floor logarithm. -/
def msbIdx (m : Nat) : Nat := msbIdxGo m m

/-- Position of the least significant set bit (proof auxiliary; 0 for 0). -/
def lowBitGo : Nat → Nat → Nat
  | 0, _ => 0
  | fuel + 1, m => if m % 2 = 1 then 0 else lowBitGo fuel (m / 2) + 1

/-- Least significant set bit position (proof auxiliary, not from the
source). -/
def lowBit (m : Nat) : Nat := lowBitGo m m

/-- The loop of `Hand::best_straight`, counting down: `straightLoop b (i+1)`
first tests window `i` (bits `i ..= i+4`), mirroring
`for i in (0..10).rev()`. -/
def straightLoop (bitmask : Nat) : Nat → Option Rank
  | 0 => none
  | i + 1 =>
    if bitmask &&& (0x1F <<< i) = 0x1F <<< i then some (Rank.id (i + 4))
    else straightLoop bitmask i

/-- `Hand::best_straight`: rank of the high card of the best straight in
the bitmask, if any. -/
def best_straight (bitmask : Nat) : Option Rank := straightLoop bitmask 10

/-- The `while bits_set > bits_needed` loop of `Hand::highcards`; the
second argument tracks the source's `bits_set` counter. -/
def trimLoop (bits_needed : Nat) : Nat → Nat → Nat
  | m, 0 => m
  | m, bs + 1 =>
    if bits_needed < bs + 1 then trimLoop bits_needed (m &&& (m - 1)) bs
    else m

/-- `Hand::highcards`: clear the Ace-mirror bit (`bitmask &= !0x01`, on
`u16` the mask is `0xFFFE`), then clear lowest set bits until at most
`bits_needed` bits remain. -/
def highcards (bitmask bits_needed : Nat) : Nat :=
  trimLoop bits_needed (bitmask &&& 0xFFFE) (bits_set (bitmask &&& 0xFFFE))

/-- The hand evaluator's cached state (`Hand`).  The two `HashMap`s are
modelled as total count functions (a missing key is a zero count, and the
source never distinguishes the two). -/
structure Hand where
  cards : List Card
  bitmask : Nat
  suit_map : Suit → Nat
  rank_map : Rank → Nat

/-- The bitmask accumulation of `Hand::new`: for every card set the bit at
its score, and for an Ace additionally mirror it into bit 0. -/
def newBitmask (cards : List Card) : Nat :=
  cards.foldl
    (fun b c =>
      let b2 := b ||| (1 <<< c.score)
      if c.score = 13 then b2 ||| 0x01 else b2)
    0

/-- `Hand::new(hole_cards, board_cards)`. -/
def Hand.new (hole_cards board_cards : List Card) : Hand :=
  { cards := hole_cards ++ board_cards
    bitmask := newBitmask (hole_cards ++ board_cards)
    suit_map := fun s => (hole_cards ++ board_cards).countP (fun c => decide (c.suit = s))
    rank_map := fun r => (hole_cards ++ board_cards).countP (fun c => decide (c.rank = r)) }

/-- The flush-suit bitmask built inside `Hand::check_flush` (the loop over
`self.cards` restricted to the flush suit, with the Ace mirror). -/
def flushBitmask (cards : List Card) (suit : Suit) : Nat :=
  cards.foldl
    (fun b c =>
      if c.suit = suit then
        let b2 := b ||| (1 <<< c.score)
        if c.score = 13 then b2 ||| 0x01 else b2
      else b)
    0

/-- `Hand::check_flush`, parametrised by the iteration order of the suit
hash map (`sord`); the source's order is whatever `HashMap` yields. -/
def Hand.check_flush (sord : List Suit) (h : Hand) : Option HandRanking :=
  match sord.find? (fun s => 5 ≤ h.suit_map s) with
  | none => none
  | some suit =>
    let bm := flushBitmask h.cards suit
    match best_straight bm with
    | some card =>
        if card = Rank.Ace then some .RoyalFlush
        else some (.StraightFlush card)
    | none => some (.Flush (highcards bm 5))

/-- `set.sort(); set.reverse();` — sort a rank vector ascending by the
derived `Ord`, then reverse. -/
def sortDescRank (l : List Rank) : List Rank :=
  (l.insertionSort (fun a b => a.toNat ≤ b.toNat)).reverse

/-- The tail of `Hand::best` after the straight check: Set, TwoPair,
OnePair and HighCard, computed from the bitmask and the collected pair and
set vectors. -/
def afterStraight (bitmask : Nat) (pair st : List Rank) : HandRanking :=
  match st with
  | s0 :: _ => .Set s0 (highcards (bitmask ^^^ (1 <<< s0.score)) 2)
  | [] =>
    if pair.length > 1 then
      match sortDescRank pair with
      | p0 :: p1 :: _ =>
          .TwoPair p0 p1
            (Rank.id (msbIdx ((bitmask ^^^ (1 <<< p0.score)) ^^^ (1 <<< p1.score))))
      | _ => .HighCard 0
    else
      match pair with
      | p0 :: _ => .OnePair p0 (highcards (bitmask ^^^ (1 <<< p0.score)) 3)
      | [] => .HighCard (highcards bitmask 5)

/-- `Hand::best`, parametrised by the iteration orders of the rank and
suit hash maps (`rord`, `sord`).  The source scans `rank_map` once,
returning Quads on a count of four and collecting pair/set ranks; with at
most one rank of count four this is the `find?` below, and the collected
vectors are the filters. -/
def Hand.bestWith (rord : List Rank) (sord : List Suit) (h : Hand) : HandRanking :=
  match rord.find? (fun c => h.rank_map c = 4) with
  | some c => .Quads c (Rank.id (msbIdx (h.bitmask ^^^ (1 <<< c.score))))
  | none =>
    let pair := rord.filter (fun c => h.rank_map c = 2)
    let st := rord.filter (fun c => h.rank_map c = 3)
    if st.length = 2 then
      match sortDescRank st with
      | s0 :: s1 :: _ => .FullHouse s0 s1
      | _ => .HighCard 0
    else if st.length = 1 ∧ pair ≠ [] then
      match st, sortDescRank pair with
      | s0 :: _, p0 :: _ => .FullHouse s0 p0
      | _, _ => .HighCard 0
    else
      match h.check_flush sord with
      | some f => f
      | none =>
        match best_straight h.bitmask with
        | some card => .Straight card
        | none =>
          if st.length = 1 then afterStraight h.bitmask pair st
          else afterStraight h.bitmask pair []

/-- `Hand::best` with the canonical iteration orders. -/
def Hand.best (h : Hand) : HandRanking := h.bestWith allRanks allSuits

/-- The canonical 52-card universe, in `Deck::new` order. -/
def fullDeck : List Card := Deck.new.cards

/-- A deck operation: a draw of `n` cards or a reset. -/
inductive DeckOp where
  | draw (n : Nat)
  | reset

/-- Apply one operation to a deck (a draw takes the deck state the source
leaves behind, panicking or not). -/
def applyOp (d : Deck) : DeckOp → Deck
  | .draw n => (Deck.draw n d).2
  | .reset => d.reset

/-- Apply a sequence of operations from left to right. -/
def applyOps (d : Deck) : List DeckOp → Deck
  | [] => d
  | op :: ops => applyOps (applyOp d op) ops

/-- Every draw in the sequence requests at most the number of cards
currently undealt (the hypothesis of claim C3). -/
def validOps (d : Deck) : List DeckOp → Bool
  | [] => true
  | .draw n :: ops =>
      decide (n ≤ d.cards.length) && validOps (applyOp d (.draw n)) ops
  | .reset :: ops => validOps (applyOp d .reset) ops

/-- The partition invariant: undealt and dealt together are exactly the
52-card universe, as a multiset. -/
def DeckInv (d : Deck) : Prop :=
  (↑d.cards + ↑d.dealt : Multiset Card) = (↑fullDeck : Multiset Card)

/-- The bitmask contribution of one card in `Hand::new`: the bit at its
score, plus the mirrored bit 0 for an Ace. -/
def cardMask (c : Card) : Nat :=
  (1 <<< c.score) ||| (if c.score = 13 then 0x01 else 0)

/-- Window `i` of the straight test is fully set: bits `i` through `i+4`
of the bitmask are all present. -/
def fullWindow (b i : Nat) : Prop :=
  ∀ j, i ≤ j → j ≤ i + 4 → b.testBit j = true

instance (b i : Nat) : Decidable (fullWindow b i) := by
  unfold fullWindow; infer_instance

/-! ### Lemmas about the rank order -/

theorem rank_cmp_eq_eq {a b : Rank} : a.cmp b = .eq ↔ a = b := by
  cases a <;> cases b <;> decide

theorem rank_cmp_swap {a b : Rank} : (a.cmp b).swap = b.cmp a := by
  cases a <;> cases b <;> decide

theorem rank_cmp_eq_lt {a b : Rank} : a.cmp b = .lt ↔ a.score < b.score := by
  cases a <;> cases b <;> decide

/-! ### Lemmas about the `HandRanking` comparison -/

theorem HandRanking.cmp_eq_eq {a b : HandRanking} : a.cmp b = .eq ↔ a = b := by
  cases a <;> cases b <;>
    simp [HandRanking.cmp, HandRanking.ctorIdx, Ordering.then_eq_eq,
      Nat.compare_eq_eq, rank_cmp_eq_eq] <;>
    try tauto

theorem HandRanking.cmp_swap {a b : HandRanking} : (a.cmp b).swap = b.cmp a := by
  cases a <;> cases b <;>
    simp [HandRanking.cmp, HandRanking.ctorIdx, Ordering.swap_then,
      Nat.compare_swap, rank_cmp_swap] <;> decide

theorem HandRanking.lt_highCard {m1 m2 : Nat} :
    (HandRanking.HighCard m1).lt (.HighCard m2) ↔ m1 < m2 := by
  simp [HandRanking.lt, HandRanking.cmp, Nat.compare_eq_lt]

theorem HandRanking.lt_onePair {r1 r2 : Rank} {m1 m2 : Nat} :
    (HandRanking.OnePair r1 m1).lt (.OnePair r2 m2) ↔
      r1.score < r2.score ∨ (r1 = r2 ∧ m1 < m2) := by
  simp [HandRanking.lt, HandRanking.cmp, Ordering.then_eq_lt,
    rank_cmp_eq_lt, rank_cmp_eq_eq, Nat.compare_eq_lt]

theorem HandRanking.lt_twoPair {a1 b1 c1 a2 b2 c2 : Rank} :
    (HandRanking.TwoPair a1 b1 c1).lt (.TwoPair a2 b2 c2) ↔
      a1.score < a2.score ∨ (a1 = a2 ∧
        (b1.score < b2.score ∨ (b1 = b2 ∧ c1.score < c2.score))) := by
  simp only [HandRanking.lt, HandRanking.cmp, Ordering.then_eq_lt,
    rank_cmp_eq_lt, rank_cmp_eq_eq, Ordering.then_eq_eq]
  tauto

theorem HandRanking.lt_set {r1 r2 : Rank} {m1 m2 : Nat} :
    (HandRanking.Set r1 m1).lt (.Set r2 m2) ↔
      r1.score < r2.score ∨ (r1 = r2 ∧ m1 < m2) := by
  simp [HandRanking.lt, HandRanking.cmp, Ordering.then_eq_lt,
    rank_cmp_eq_lt, rank_cmp_eq_eq, Nat.compare_eq_lt]

theorem HandRanking.lt_straight {r1 r2 : Rank} :
    (HandRanking.Straight r1).lt (.Straight r2) ↔ r1.score < r2.score := by
  simp [HandRanking.lt, HandRanking.cmp, rank_cmp_eq_lt]

theorem HandRanking.lt_flush {m1 m2 : Nat} :
    (HandRanking.Flush m1).lt (.Flush m2) ↔ m1 < m2 := by
  simp [HandRanking.lt, HandRanking.cmp, Nat.compare_eq_lt]

theorem HandRanking.lt_fullHouse {a1 b1 a2 b2 : Rank} :
    (HandRanking.FullHouse a1 b1).lt (.FullHouse a2 b2) ↔
      a1.score < a2.score ∨ (a1 = a2 ∧ b1.score < b2.score) := by
  simp [HandRanking.lt, HandRanking.cmp, Ordering.then_eq_lt,
    rank_cmp_eq_lt, rank_cmp_eq_eq]

theorem HandRanking.lt_quads {a1 b1 a2 b2 : Rank} :
    (HandRanking.Quads a1 b1).lt (.Quads a2 b2) ↔
      a1.score < a2.score ∨ (a1 = a2 ∧ b1.score < b2.score) := by
  simp [HandRanking.lt, HandRanking.cmp, Ordering.then_eq_lt,
    rank_cmp_eq_lt, rank_cmp_eq_eq]

theorem HandRanking.lt_straightFlush {r1 r2 : Rank} :
    (HandRanking.StraightFlush r1).lt (.StraightFlush r2) ↔ r1.score < r2.score := by
  simp [HandRanking.lt, HandRanking.cmp, rank_cmp_eq_lt]

theorem HandRanking.lt_of_ctorIdx_lt :
    ∀ a b : HandRanking, a.ctorIdx < b.ctorIdx → a.lt b := by
  intro a b
  cases a <;> cases b <;> intro h <;> simp [HandRanking.ctorIdx] at h <;> exact rfl

theorem HandRanking.gt_of_ctorIdx_lt :
    ∀ a b : HandRanking, a.ctorIdx < b.ctorIdx → b.gt a := by
  intro a b h
  have hl := HandRanking.lt_of_ctorIdx_lt a b h
  rw [HandRanking.gt, ← HandRanking.cmp_swap, hl]
  rfl

theorem HandRanking.trichotomy (a b : HandRanking) :
    (a.lt b ∧ a ≠ b ∧ ¬a.gt b) ∨ (¬a.lt b ∧ a = b ∧ ¬a.gt b) ∨
      (¬a.lt b ∧ a ≠ b ∧ a.gt b) := by
  rcases h : a.cmp b with _ | _ | _
  · refine Or.inl ⟨h, fun he => ?_, fun hg => ?_⟩
    · rw [HandRanking.cmp_eq_eq.mpr he] at h; exact absurd h (by decide)
    · rw [HandRanking.gt, h] at hg; exact absurd hg (by decide)
  · exact Or.inr (Or.inl ⟨by simp [HandRanking.lt, h], HandRanking.cmp_eq_eq.mp h,
      by simp [HandRanking.gt, h]⟩)
  · refine Or.inr (Or.inr ⟨by simp [HandRanking.lt, h], fun he => ?_, h⟩)
    rw [HandRanking.cmp_eq_eq.mpr he] at h; exact absurd h (by decide)

/-! ### Claim theorems C1 and C7 -/

/-- Claim C1: the comparison on `HandRanking` is a total order — for every
pair of values exactly one of `<`, `==`, `>` holds; any value of a
later-listed variant compares strictly greater than any value of an
earlier-listed variant regardless of payloads; and within the same variant
the payload fields are compared left-to-right, `Rank` by its score and
kicker-masks as unsigned integers. -/
theorem handRanking_total_order :
    (∀ a b : HandRanking,
      (a.lt b ∧ a ≠ b ∧ ¬a.gt b) ∨ (¬a.lt b ∧ a = b ∧ ¬a.gt b) ∨
        (¬a.lt b ∧ a ≠ b ∧ a.gt b)) ∧
    (∀ a b : HandRanking, a.ctorIdx < b.ctorIdx → a.lt b ∧ b.gt a) ∧
    ((∀ m1 m2 : Nat, (HandRanking.HighCard m1).lt (.HighCard m2) ↔ m1 < m2) ∧
     (∀ (r1 r2 : Rank) (m1 m2 : Nat),
        (HandRanking.OnePair r1 m1).lt (.OnePair r2 m2) ↔
          r1.score < r2.score ∨ (r1 = r2 ∧ m1 < m2)) ∧
     (∀ a1 b1 c1 a2 b2 c2 : Rank,
        (HandRanking.TwoPair a1 b1 c1).lt (.TwoPair a2 b2 c2) ↔
          a1.score < a2.score ∨ (a1 = a2 ∧
            (b1.score < b2.score ∨ (b1 = b2 ∧ c1.score < c2.score)))) ∧
     (∀ (r1 r2 : Rank) (m1 m2 : Nat),
        (HandRanking.Set r1 m1).lt (.Set r2 m2) ↔
          r1.score < r2.score ∨ (r1 = r2 ∧ m1 < m2)) ∧
     (∀ r1 r2 : Rank,
        (HandRanking.Straight r1).lt (.Straight r2) ↔ r1.score < r2.score) ∧
     (∀ m1 m2 : Nat, (HandRanking.Flush m1).lt (.Flush m2) ↔ m1 < m2) ∧
     (∀ a1 b1 a2 b2 : Rank,
        (HandRanking.FullHouse a1 b1).lt (.FullHouse a2 b2) ↔
          a1.score < a2.score ∨ (a1 = a2 ∧ b1.score < b2.score)) ∧
     (∀ a1 b1 a2 b2 : Rank,
        (HandRanking.Quads a1 b1).lt (.Quads a2 b2) ↔
          a1.score < a2.score ∨ (a1 = a2 ∧ b1.score < b2.score)) ∧
     (∀ r1 r2 : Rank,
        (HandRanking.StraightFlush r1).lt (.StraightFlush r2) ↔
          r1.score < r2.score)) := by
  refine ⟨HandRanking.trichotomy,
    fun a b h => ⟨HandRanking.lt_of_ctorIdx_lt a b h, HandRanking.gt_of_ctorIdx_lt a b h⟩,
    ?_, ?_, ?_, ?_, ?_, ?_, ?_, ?_, ?_⟩
  · exact fun _ _ => HandRanking.lt_highCard
  · exact fun _ _ _ _ => HandRanking.lt_onePair
  · exact fun _ _ _ _ _ _ => HandRanking.lt_twoPair
  · exact fun _ _ _ _ => HandRanking.lt_set
  · exact fun _ _ => HandRanking.lt_straight
  · exact fun _ _ => HandRanking.lt_flush
  · exact fun _ _ _ _ => HandRanking.lt_fullHouse
  · exact fun _ _ _ _ => HandRanking.lt_quads
  · exact fun _ _ => HandRanking.lt_straightFlush

/-- Claim C7: kicker monotonicity — for two `HandRanking` values of the
same variant with equal primary rank fields, the one with the strictly
larger kicker-mask (as an unsigned integer) compares strictly greater. -/
theorem handRanking_kicker_monotonicity :
    (∀ m1 m2 : Nat, (HandRanking.HighCard m1).lt (.HighCard m2) ↔ m1 < m2) ∧
    (∀ (r : Rank) (m1 m2 : Nat),
      (HandRanking.OnePair r m1).lt (.OnePair r m2) ↔ m1 < m2) ∧
    (∀ (r : Rank) (m1 m2 : Nat),
      (HandRanking.Set r m1).lt (.Set r m2) ↔ m1 < m2) ∧
    (∀ m1 m2 : Nat, (HandRanking.Flush m1).lt (.Flush m2) ↔ m1 < m2) := by
  refine ⟨fun _ _ => HandRanking.lt_highCard, fun r m1 m2 => ?_, fun r m1 m2 => ?_,
    fun _ _ => HandRanking.lt_flush⟩
  · rw [HandRanking.lt_onePair]; simp
  · rw [HandRanking.lt_set]; simp

/-! ### Deck lemmas (claims C2, C3, C10) -/

/-- Closed form of the draw loop when enough cards remain: the last `n`
cards are removed, returned in reverse of their stored order, and appended
to `dealt` in that drawn order. -/
theorem drawLoop_spec :
    ∀ (n : Nat) (d : Deck) (acc : List Card), n ≤ d.cards.length →
      Deck.drawLoop n d acc =
        (some (acc ++ (d.cards.drop (d.cards.length - n)).reverse),
         ⟨d.cards.take (d.cards.length - n),
          d.dealt ++ (d.cards.drop (d.cards.length - n)).reverse⟩) := by
  intro n
  induction n with
  | zero =>
    intro d acc _
    simp [Deck.drawLoop]
  | succ n ih =>
    intro d acc h
    rcases List.eq_nil_or_concat d.cards with hnil | ⟨l, a, hla⟩
    · rw [hnil] at h; simp at h
    · obtain ⟨cs, dl⟩ := d
      simp only at hla h ⊢
      subst hla
      simp only [List.concat_eq_append] at h ⊢
      have hlen : (l ++ [a]).length = l.length + 1 := by simp
      have hn : n ≤ l.length := by
        rw [hlen] at h; omega
      have h1 : (l ++ [a]).length - (n + 1) = l.length - n := by
        rw [hlen]; omega
      have hkle : l.length - n ≤ l.length := Nat.sub_le _ _
      rw [Deck.drawLoop]
      simp only [List.getLast?_concat, List.dropLast_concat]
      rw [ih ⟨l, dl ++ [a]⟩ (acc ++ [a]) hn]
      simp only [h1, List.drop_append_of_le_length hkle,
        List.take_append_of_le_length hkle]
      simp [List.reverse_append]

theorem draw_in_range_eq (d : Deck) (n : Nat) (h : n ≤ d.cards.length) :
    Deck.draw n d =
      (some ((d.cards.drop (d.cards.length - n)).reverse),
       ⟨d.cards.take (d.cards.length - n),
        d.dealt ++ (d.cards.drop (d.cards.length - n)).reverse⟩) := by
  rw [Deck.draw, drawLoop_spec n d [] h]
  simp

/-- Claim C10: when `n` is at most the number of undealt cards, `draw(n)`
removes exactly the last `n` cards of the undealt sequence, returns them
with the previously-last card first (reverse of stored order), and appends
them to `dealt` in that same drawn order. -/
theorem deck_draw_in_range (d : Deck) (n : Nat) (h : n ≤ d.cards.length) :
    Deck.draw n d =
      (some ((d.cards.drop (d.cards.length - n)).reverse),
       ⟨d.cards.take (d.cards.length - n),
        d.dealt ++ (d.cards.drop (d.cards.length - n)).reverse⟩) :=
  draw_in_range_eq d n h

/-- Witness for C10: drawing two cards from a fresh deck takes the two
final cards (Ace of Spades then Ace of Hearts) off the undealt pile. -/
theorem deck_draw_in_range_witness :
    (2 ≤ Deck.new.cards.length) ∧
    Deck.draw 2 Deck.new =
      (some ((Deck.new.cards.drop (Deck.new.cards.length - 2)).reverse),
       ⟨Deck.new.cards.take (Deck.new.cards.length - 2),
        Deck.new.dealt ++ (Deck.new.cards.drop (Deck.new.cards.length - 2)).reverse⟩) :=
  ⟨by decide, deck_draw_in_range Deck.new 2 (by decide)⟩

/-- Claim C2 (documenting the code bug): drawing 53 cards from a fresh
52-card deck does not produce a typed, recoverable error with the deck
unchanged; the loop pops all 52 cards into `dealt` and then panics
(`"Deck is empty!"`, modelled by the `none` result), leaving the deck in
the partially drawn state. -/
theorem deck_draw_overdraw_panics :
    (Deck.draw 53 Deck.new).1 = none ∧
    (Deck.draw 53 Deck.new).2.cards = [] ∧
    (Deck.draw 53 Deck.new).2.dealt.length = 52 ∧
    (Deck.draw 53 Deck.new).2 ≠ Deck.new := by
  refine ⟨by decide, by decide, by decide, by decide⟩

theorem deckInv_new : DeckInv Deck.new := by
  simp [DeckInv, Deck.new, fullDeck]

theorem deckInv_draw {d : Deck} {n : Nat} (h : n ≤ d.cards.length)
    (hinv : DeckInv d) : DeckInv (Deck.draw n d).2 := by
  rw [draw_in_range_eq d n h]
  unfold DeckInv at hinv ⊢
  dsimp only
  rw [← hinv]
  rw [← Multiset.coe_add, Multiset.coe_reverse]
  have hsplit : d.cards.take (d.cards.length - n) ++ d.cards.drop (d.cards.length - n) =
      d.cards := List.take_append_drop _ _
  calc (↑(d.cards.take (d.cards.length - n)) + (↑d.dealt + ↑(d.cards.drop (d.cards.length - n)))
          : Multiset Card)
      = ↑(d.cards.take (d.cards.length - n)) + ↑(d.cards.drop (d.cards.length - n)) + ↑d.dealt := by
        abel
    _ = (↑(d.cards.take (d.cards.length - n) ++ d.cards.drop (d.cards.length - n)) + ↑d.dealt
          : Multiset Card) := by
        rw [← Multiset.coe_add]
    _ = (↑d.cards + ↑d.dealt : Multiset Card) := by rw [hsplit]

theorem deckInv_reset {d : Deck} (hinv : DeckInv d) : DeckInv d.reset := by
  unfold DeckInv at hinv ⊢
  rw [← hinv]
  simp [Deck.reset]

theorem deckInv_applyOps :
    ∀ (ops : List DeckOp) (d : Deck), DeckInv d → validOps d ops = true →
      DeckInv (applyOps d ops) := by
  intro ops
  induction ops with
  | nil => intro d hinv _; exact hinv
  | cons op ops ih =>
    intro d hinv hv
    cases op with
    | draw n =>
      rw [validOps, Bool.and_eq_true, decide_eq_true_eq] at hv
      exact ih _ (deckInv_draw hv.1 hinv) hv.2
    | reset =>
      rw [validOps] at hv
      exact ih _ (deckInv_reset hinv) hv

/-- Claim C3: starting from `Deck::new()`, after every finite sequence of
in-range draws and resets, undealt and dealt have 52 cards in total, share
no card, and their multiset union is exactly the fixed 52-card universe
(one card per rank × suit pair). -/
theorem deck_partition_invariant (ops : List DeckOp)
    (h : validOps Deck.new ops = true) :
    (applyOps Deck.new ops).cards.length + (applyOps Deck.new ops).dealt.length = 52 ∧
    (∀ c ∈ (applyOps Deck.new ops).cards, c ∉ (applyOps Deck.new ops).dealt) ∧
    (↑(applyOps Deck.new ops).cards + ↑(applyOps Deck.new ops).dealt : Multiset Card) =
      (↑fullDeck : Multiset Card) ∧
    (∀ c : Card,
      (↑(applyOps Deck.new ops).cards + ↑(applyOps Deck.new ops).dealt
        : Multiset Card).count c = 1) := by
  have hinv := deckInv_applyOps ops Deck.new deckInv_new h
  set d := applyOps Deck.new ops
  have hperm : (d.cards ++ d.dealt).Perm fullDeck := by
    rw [← Multiset.coe_eq_coe, ← Multiset.coe_add]
    exact hinv
  have hnodupFull : fullDeck.Nodup := by decide
  have hnodup : (d.cards ++ d.dealt).Nodup := hperm.nodup_iff.mpr hnodupFull
  refine ⟨?_, ?_, hinv, ?_⟩
  · have := hperm.length_eq
    rw [List.length_append] at this
    rw [this]
    decide
  · exact (List.nodup_append.mp hnodup).2.2
  · intro c
    have hmem : c ∈ fullDeck := by
      rcases c with ⟨r, s⟩
      cases r <;> cases s <;> decide
    rw [hinv, Multiset.coe_count]
    exact List.count_eq_one_of_mem hnodupFull hmem

/-- Witness for C3: a concrete session — draw the hole cards, draw the
board, reset, then draw the whole deck — keeps the partition invariant. -/
theorem deck_partition_invariant_witness :
    validOps Deck.new [DeckOp.draw 2, DeckOp.draw 5, DeckOp.reset, DeckOp.draw 52] = true ∧
    ((applyOps Deck.new [DeckOp.draw 2, DeckOp.draw 5, DeckOp.reset, DeckOp.draw 52]).cards.length +
        (applyOps Deck.new [DeckOp.draw 2, DeckOp.draw 5, DeckOp.reset, DeckOp.draw 52]).dealt.length = 52 ∧
      (∀ c ∈ (applyOps Deck.new [DeckOp.draw 2, DeckOp.draw 5, DeckOp.reset, DeckOp.draw 52]).cards,
        c ∉ (applyOps Deck.new [DeckOp.draw 2, DeckOp.draw 5, DeckOp.reset, DeckOp.draw 52]).dealt) ∧
      (↑(applyOps Deck.new [DeckOp.draw 2, DeckOp.draw 5, DeckOp.reset, DeckOp.draw 52]).cards +
          ↑(applyOps Deck.new [DeckOp.draw 2, DeckOp.draw 5, DeckOp.reset, DeckOp.draw 52]).dealt
        : Multiset Card) = (↑fullDeck : Multiset Card) ∧
      (∀ c : Card,
        (↑(applyOps Deck.new [DeckOp.draw 2, DeckOp.draw 5, DeckOp.reset, DeckOp.draw 52]).cards +
            ↑(applyOps Deck.new [DeckOp.draw 2, DeckOp.draw 5, DeckOp.reset, DeckOp.draw 52]).dealt
          : Multiset Card).count c = 1)) :=
  ⟨by decide,
   deck_partition_invariant [DeckOp.draw 2, DeckOp.draw 5, DeckOp.reset, DeckOp.draw 52]
     (by decide)⟩

/-! ### Bit-level lemmas: unfolding the fuel-driven loops -/

theorem land_pred_le {m : Nat} : m &&& (m - 1) ≤ m - 1 := Nat.and_le_right

theorem land_pred_lt {m : Nat} (h : m ≠ 0) : m &&& (m - 1) < m :=
  lt_of_le_of_lt land_pred_le (by omega)

theorem bitsSetGo_zero : ∀ f, bitsSetGo f 0 = 0 := by
  intro f; cases f <;> rfl

theorem bitsSetGo_fuel :
    ∀ (m f₁ f₂ : Nat), m ≤ f₁ → m ≤ f₂ → bitsSetGo f₁ m = bitsSetGo f₂ m := by
  intro m
  induction m using Nat.strong_induction_on with
  | _ m ih =>
    intro f₁ f₂ h₁ h₂
    by_cases hm : m = 0
    · subst hm; rw [bitsSetGo_zero, bitsSetGo_zero]
    · obtain ⟨g₁, rfl⟩ : ∃ g, f₁ = g + 1 := ⟨f₁ - 1, by omega⟩
      obtain ⟨g₂, rfl⟩ : ∃ g, f₂ = g + 1 := ⟨f₂ - 1, by omega⟩
      rw [bitsSetGo, bitsSetGo, if_neg hm, if_neg hm]
      have hle : m &&& (m - 1) ≤ m - 1 := land_pred_le
      rw [ih (m &&& (m - 1)) (land_pred_lt hm) g₁ g₂ (by omega) (by omega)]

theorem bits_set_eq (m : Nat) :
    bits_set m = if m = 0 then 0 else bits_set (m &&& (m - 1)) + 1 := by
  by_cases hm : m = 0
  · subst hm; rfl
  · rw [if_neg hm]
    obtain ⟨k, rfl⟩ : ∃ k, m = k + 1 := ⟨m - 1, by omega⟩
    show bitsSetGo (k + 1) (k + 1) = _
    rw [bitsSetGo, if_neg hm]
    have hle : (k + 1) &&& k ≤ k := by
      have := land_pred_le (m := k + 1); simpa using this
    rw [bits_set, bitsSetGo_fuel ((k + 1) &&& (k + 1 - 1)) k ((k + 1) &&& (k + 1 - 1))
      (by simpa using hle) le_rfl]

theorem bits_set_zero : bits_set 0 = 0 := rfl

theorem bits_set_eq_zero_iff {m : Nat} : bits_set m = 0 ↔ m = 0 := by
  constructor
  · intro h
    by_contra hm
    rw [bits_set_eq, if_neg hm] at h
    omega
  · intro h; subst h; rfl

theorem msbIdxGo_fuel :
    ∀ (m f₁ f₂ : Nat), m ≤ f₁ → m ≤ f₂ → msbIdxGo f₁ m = msbIdxGo f₂ m := by
  intro m
  induction m using Nat.strong_induction_on with
  | _ m ih =>
    intro f₁ f₂ h₁ h₂
    by_cases hm : m < 2
    · have hz : ∀ f, msbIdxGo f 0 = 0 := by intro f; cases f <;> rfl
      interval_cases m
      · rw [hz, hz]
      · obtain ⟨g₁, rfl⟩ : ∃ g, f₁ = g + 1 := ⟨f₁ - 1, by omega⟩
        obtain ⟨g₂, rfl⟩ : ∃ g, f₂ = g + 1 := ⟨f₂ - 1, by omega⟩
        rfl
    · obtain ⟨g₁, rfl⟩ : ∃ g, f₁ = g + 1 := ⟨f₁ - 1, by omega⟩
      obtain ⟨g₂, rfl⟩ : ∃ g, f₂ = g + 1 := ⟨f₂ - 1, by omega⟩
      rw [msbIdxGo, msbIdxGo, if_neg hm, if_neg hm]
      rw [ih (m / 2) (by omega) g₁ g₂ (by omega) (by omega)]

theorem msbIdx_eq (m : Nat) :
    msbIdx m = if m < 2 then 0 else msbIdx (m / 2) + 1 := by
  by_cases hm : m < 2
  · rw [if_pos hm]
    interval_cases m <;> rfl
  · rw [if_neg hm]
    obtain ⟨k, rfl⟩ : ∃ k, m = k + 1 := ⟨m - 1, by omega⟩
    show msbIdxGo (k + 1) (k + 1) = _
    rw [msbIdxGo, if_neg hm]
    rw [msbIdx, msbIdxGo_fuel ((k + 1) / 2) k ((k + 1) / 2) (by omega) le_rfl]

theorem lowBitGo_fuel :
    ∀ (m f₁ f₂ : Nat), m ≠ 0 → m ≤ f₁ → m ≤ f₂ → lowBitGo f₁ m = lowBitGo f₂ m := by
  intro m
  induction m using Nat.strong_induction_on with
  | _ m ih =>
    intro f₁ f₂ hm h₁ h₂
    obtain ⟨g₁, rfl⟩ : ∃ g, f₁ = g + 1 := ⟨f₁ - 1, by omega⟩
    obtain ⟨g₂, rfl⟩ : ∃ g, f₂ = g + 1 := ⟨f₂ - 1, by omega⟩
    rw [lowBitGo, lowBitGo]
    by_cases hodd : m % 2 = 1
    · rw [if_pos hodd, if_pos hodd]
    · rw [if_neg hodd, if_neg hodd]
      rw [ih (m / 2) (by omega) g₁ g₂ (by omega) (by omega) (by omega)]

theorem lowBit_eq {m : Nat} (hm : m ≠ 0) :
    lowBit m = if m % 2 = 1 then 0 else lowBit (m / 2) + 1 := by
  obtain ⟨k, rfl⟩ : ∃ k, m = k + 1 := ⟨m - 1, by omega⟩
  show lowBitGo (k + 1) (k + 1) = _
  rw [lowBitGo]
  by_cases hodd : (k + 1) % 2 = 1
  · rw [if_pos hodd, if_pos hodd]
  · rw [if_neg hodd, if_neg hodd]
    rw [lowBit, lowBitGo_fuel ((k + 1) / 2) k ((k + 1) / 2) (by omega) (by omega) le_rfl]

/-! ### Bit-level lemmas: clearing the lowest set bit -/

theorem two_mul_add_one_land (a : Nat) : (2 * a + 1) &&& (2 * a) = 2 * a := by
  apply Nat.eq_of_testBit_eq
  intro i
  cases i with
  | zero =>
    simp [Nat.testBit_and, Nat.testBit_zero]
  | succ i =>
    rw [Nat.testBit_and]
    simp only [Nat.testBit_add_one]
    have h1 : (2 * a + 1) / 2 = a := by omega
    have h2 : 2 * a / 2 = a := by omega
    rw [h1, h2, Bool.and_self]

theorem two_mul_land {a : Nat} (ha : a ≠ 0) :
    (2 * a) &&& (2 * a - 1) = 2 * (a &&& (a - 1)) := by
  apply Nat.eq_of_testBit_eq
  intro i
  cases i with
  | zero =>
    rw [Nat.testBit_and]
    simp [Nat.testBit_zero]
  | succ i =>
    rw [Nat.testBit_and]
    simp only [Nat.testBit_add_one]
    have h1 : 2 * a / 2 = a := by omega
    have h2 : (2 * a - 1) / 2 = a - 1 := by omega
    have h3 : 2 * (a &&& (a - 1)) / 2 = a &&& (a - 1) := by omega
    rw [h1, h2, h3, Nat.testBit_and]

theorem bits_set_two_mul (a : Nat) : bits_set (2 * a) = bits_set a := by
  induction a using Nat.strong_induction_on with
  | _ a ih =>
    by_cases ha : a = 0
    · subst ha; rfl
    · rw [bits_set_eq (2 * a), if_neg (by omega), two_mul_land ha,
        ih (a &&& (a - 1)) (land_pred_lt ha), bits_set_eq a, if_neg ha]

theorem bits_set_two_mul_add_one (a : Nat) :
    bits_set (2 * a + 1) = bits_set a + 1 := by
  rw [bits_set_eq (2 * a + 1), if_neg (by omega)]
  have h : 2 * a + 1 - 1 = 2 * a := by omega
  rw [h, two_mul_add_one_land, bits_set_two_mul]

theorem bits_set_step (m : Nat) : bits_set m = m % 2 + bits_set (m / 2) := by
  rcases Nat.mod_two_eq_zero_or_one m with h | h
  · have : m = 2 * (m / 2) := by omega
    conv_lhs => rw [this]
    rw [bits_set_two_mul, h]
    omega
  · have : m = 2 * (m / 2) + 1 := by omega
    conv_lhs => rw [this]
    rw [bits_set_two_mul_add_one, h]
    omega

theorem bits_set_split (k : Nat) :
    ∀ m : Nat, bits_set m = bits_set (m % 2 ^ k) + bits_set (m >>> k) := by
  induction k with
  | zero =>
    intro m
    simp [Nat.mod_one, bits_set_zero, Nat.shiftRight_zero]
  | succ k ih =>
    intro m
    have hsh : m >>> (k + 1) = (m / 2) >>> k := Nat.shiftRight_succ_inside m k
    have hx2 : m % 2 ^ (k + 1) % 2 = m % 2 := by
      apply Nat.mod_mod_of_dvd
      exact dvd_pow_self 2 (by omega)
    have hxd : m % 2 ^ (k + 1) / 2 = m / 2 % 2 ^ k := by
      have h2 : (2 : Nat) ^ (k + 1) = 2 * 2 ^ k := by ring
      rw [h2, Nat.mod_mul_right_div_self]
    rw [bits_set_step m, bits_set_step (m % 2 ^ (k + 1)), hx2, hxd, hsh, ih (m / 2)]
    omega

theorem lowBit_testBit : ∀ {m : Nat}, m ≠ 0 → m.testBit (lowBit m) = true := by
  intro m
  induction m using Nat.strong_induction_on with
  | _ m ih =>
    intro hm
    rw [lowBit_eq hm]
    by_cases hodd : m % 2 = 1
    · rw [if_pos hodd, Nat.testBit_zero]
      simp [hodd]
    · rw [if_neg hodd, Nat.testBit_add_one]
      exact ih (m / 2) (by omega) (by omega)

theorem lowBit_min : ∀ {m : Nat}, m ≠ 0 → ∀ j, j < lowBit m → m.testBit j = false := by
  intro m
  induction m using Nat.strong_induction_on with
  | _ m ih =>
    intro hm j hj
    rw [lowBit_eq hm] at hj
    by_cases hodd : m % 2 = 1
    · rw [if_pos hodd] at hj; omega
    · rw [if_neg hodd] at hj
      cases j with
      | zero =>
        rw [Nat.testBit_zero]
        simp
        omega
      | succ j =>
        rw [Nat.testBit_add_one]
        exact ih (m / 2) (by omega) (by omega) j (by omega)

theorem land_pred_testBit :
    ∀ {m : Nat}, m ≠ 0 → ∀ i,
      (m &&& (m - 1)).testBit i = (m.testBit i && decide (i ≠ lowBit m)) := by
  intro m
  induction m using Nat.strong_induction_on with
  | _ m ih =>
    intro hm i
    by_cases hodd : m % 2 = 1
    · have hsplit : m = 2 * (m / 2) + 1 := by omega
      have hland : m &&& (m - 1) = 2 * (m / 2) := by
        conv_lhs => rw [hsplit]
        have : 2 * (m / 2) + 1 - 1 = 2 * (m / 2) := by omega
        rw [this, two_mul_add_one_land]
      rw [hland, lowBit_eq hm, if_pos hodd]
      cases i with
      | zero =>
        simp [Nat.testBit_zero]
      | succ i =>
        rw [Nat.testBit_add_one, Nat.testBit_add_one]
        have h1 : 2 * (m / 2) / 2 = m / 2 := by omega
        rw [h1]
        simp
    · have hm2 : m / 2 ≠ 0 := by omega
      have hsplit : m = 2 * (m / 2) := by omega
      have hland : m &&& (m - 1) = 2 * ((m / 2) &&& (m / 2 - 1)) := by
        conv_lhs => rw [hsplit]
        exact two_mul_land hm2
      rw [hland, lowBit_eq hm, if_neg hodd]
      cases i with
      | zero =>
        simp [Nat.testBit_zero]
        omega
      | succ i =>
        rw [Nat.testBit_add_one, Nat.testBit_add_one]
        have h1 : 2 * (m / 2 &&& (m / 2 - 1)) / 2 = m / 2 &&& (m / 2 - 1) := by omega
        rw [h1, ih (m / 2) (by omega) hm2 i]
        have hdec : decide (i + 1 ≠ lowBit (m / 2) + 1) = decide (i ≠ lowBit (m / 2)) := by
          rw [decide_eq_decide]
          omega
        rw [hdec]

theorem land_pred_shiftRight {m : Nat} (hm : m ≠ 0) {i : Nat} (hi : lowBit m ≤ i) :
    (m &&& (m - 1)) >>> (i + 1) = m >>> (i + 1) := by
  apply Nat.eq_of_testBit_eq
  intro j
  rw [Nat.testBit_shiftRight, Nat.testBit_shiftRight, land_pred_testBit hm]
  have : i + 1 + j ≠ lowBit m := by omega
  simp [this]

theorem mod_two_pow_lowBit {m : Nat} (hm : m ≠ 0) :
    m % 2 ^ (lowBit m + 1) = 2 ^ lowBit m := by
  apply Nat.eq_of_testBit_eq
  intro j
  rw [Nat.testBit_mod_two_pow, Nat.testBit_two_pow]
  rcases lt_trichotomy j (lowBit m) with hlt | heq | hgt
  · rw [lowBit_min hm j hlt]
    simp
    omega
  · subst heq
    rw [lowBit_testBit hm]
    simp
  · have h1 : ¬(j < lowBit m + 1) := by omega
    simp [h1]
    omega

theorem bits_set_two_pow (l : Nat) : bits_set (2 ^ l) = 1 := by
  induction l with
  | zero => rfl
  | succ l ih =>
    have : (2 : Nat) ^ (l + 1) = 2 * 2 ^ l := by ring
    rw [this, bits_set_two_mul, ih]

theorem bits_set_shiftRight_lowBit {m : Nat} (hm : m ≠ 0) :
    bits_set (m >>> (lowBit m + 1)) = bits_set m - 1 := by
  have hsplit := bits_set_split (lowBit m + 1) m
  rw [mod_two_pow_lowBit hm, bits_set_two_pow] at hsplit
  omega

theorem testBit_bits_set_lt {m i : Nat} (h : m.testBit i = true) :
    bits_set (m >>> (i + 1)) < bits_set m := by
  have hsplit := bits_set_split (i + 1) m
  have hlow : (m % 2 ^ (i + 1)).testBit i = true := by
    rw [Nat.testBit_mod_two_pow]
    simp [h]
  have hne : m % 2 ^ (i + 1) ≠ 0 := by
    intro he
    rw [he] at hlow
    simp at hlow
  have : bits_set (m % 2 ^ (i + 1)) ≠ 0 := fun he => hne (bits_set_eq_zero_iff.mp he)
  omega

theorem bits_set_land_pred {m : Nat} (hm : m ≠ 0) :
    bits_set (m &&& (m - 1)) = bits_set m - 1 := by
  have := bits_set_eq m
  rw [if_neg hm] at this
  omega

/-! ### The top-N trim (claim C6) -/

theorem trimLoop_testBit :
    ∀ (bs N m : Nat), bits_set m = bs → ∀ i,
      (trimLoop N m bs).testBit i =
        (m.testBit i && decide (bits_set (m >>> (i + 1)) < N)) := by
  intro bs
  induction bs with
  | zero =>
    intro N m hm i
    have h0 : m = 0 := bits_set_eq_zero_iff.mp hm
    subst h0
    simp [trimLoop]
  | succ bs ih =>
    intro N m hm i
    have hm0 : m ≠ 0 := by
      intro h
      subst h
      rw [bits_set_zero] at hm
      omega
    rw [trimLoop]
    by_cases hN : N < bs + 1
    · rw [if_pos hN]
      have hm' : bits_set (m &&& (m - 1)) = bs := by
        have := bits_set_land_pred hm0
        omega
      rw [ih N (m &&& (m - 1)) hm' i]
      rcases lt_trichotomy i (lowBit m) with hlt | heq | hgt
      · have h1 : m.testBit i = false := lowBit_min hm0 i hlt
        have h2 : (m &&& (m - 1)).testBit i = false := by
          rw [land_pred_testBit hm0, h1, Bool.false_and]
        rw [h1, h2, Bool.false_and, Bool.false_and]
      · have h1 : (m &&& (m - 1)).testBit i = false := by
          rw [land_pred_testBit hm0]
          simp [heq]
        have h2 : m.testBit i = true := by
          rw [heq]
          exact lowBit_testBit hm0
        have h3 : bits_set (m >>> (i + 1)) = bs := by
          rw [heq, bits_set_shiftRight_lowBit hm0, hm]
          omega
        rw [h1, h2, h3]
        have h4 : ¬(bs < N) := by omega
        simp [h4]
      · have hne : i ≠ lowBit m := by omega
        rw [land_pred_testBit hm0, land_pred_shiftRight hm0 (by omega)]
        simp [hne]
    · rw [if_neg hN]
      cases htb : m.testBit i with
      | false => simp
      | true =>
        have hlt := testBit_bits_set_lt htb
        rw [hm] at hlt
        have : bits_set (m >>> (i + 1)) < N := by omega
        simp [this]

theorem testBit_mask0xFFFE (i : Nat) :
    (0xFFFE : Nat).testBit i = (decide (1 ≤ i) && decide (i < 16)) := by
  cases i with
  | zero => decide
  | succ i =>
    rw [Nat.testBit_add_one]
    have h2 : (0xFFFE : Nat) / 2 = 2 ^ 15 - 1 := by norm_num
    rw [h2, Nat.testBit_two_pow_sub_one]
    have h3 : decide (1 ≤ i + 1) = true := by simp
    rw [h3, Bool.true_and, decide_eq_decide]
    omega

/-- Claim C6: `highcards(b, N)` first clears the Ace-mirror bit 0 and then
repeatedly clears the lowest set bit while more than `N` bits remain; bit
`i` survives exactly when it is a set bit of `b` other than bit 0 with
fewer than `N` set bits strictly above it — i.e. the result is the mask of
the `N` highest set bits of `b` excluding bit 0, or all of them if fewer
than `N` are set. -/
theorem highcards_top_n (b N i : Nat) (hb : b < 2 ^ 16) :
    (highcards b N).testBit i =
      (b.testBit i && decide (1 ≤ i) && decide (bits_set (b >>> (i + 1)) < N)) := by
  have hmem : ∀ j, (b &&& 0xFFFE).testBit j = (b.testBit j && decide (1 ≤ j)) := by
    intro j
    rw [Nat.testBit_and, testBit_mask0xFFFE]
    cases htb : b.testBit j with
    | false => simp
    | true =>
      have hj : j < 16 := by
        by_contra hge
        have h1 : (2 : Nat) ^ 16 ≤ 2 ^ j := Nat.pow_le_pow_right (by omega) (by omega)
        have h2 := Nat.testBit_implies_ge htb
        omega
      simp [hj]
  have hshift : (b &&& 0xFFFE) >>> (i + 1) = b >>> (i + 1) := by
    apply Nat.eq_of_testBit_eq
    intro j
    rw [Nat.testBit_shiftRight, Nat.testBit_shiftRight, hmem]
    have h1 : 1 ≤ i + 1 + j := by omega
    simp [h1]
  rw [highcards, trimLoop_testBit (bits_set (b &&& 0xFFFE)) N (b &&& 0xFFFE) rfl i,
    hmem i, hshift]

/-- Witness for C6: on the mask with bits {0,4,5,7,8,12,13} and `N = 3`,
bit 8 is kept (only bits 12 and 13 lie above it). -/
theorem highcards_top_n_witness :
    ((0x31B1 : Nat) < 2 ^ 16) ∧
    (highcards 0x31B1 3).testBit 8 =
      ((0x31B1 : Nat).testBit 8 && decide (1 ≤ 8) &&
        decide (bits_set ((0x31B1 : Nat) >>> 9) < 3)) :=
  ⟨by decide, highcards_top_n 0x31B1 3 8 (by decide)⟩

/-! ### The most significant bit (the `f64::log2` kicker computations) -/

theorem msbIdx_bounds : ∀ {m : Nat}, m ≠ 0 → 2 ^ msbIdx m ≤ m ∧ m < 2 ^ (msbIdx m + 1) := by
  intro m
  induction m using Nat.strong_induction_on with
  | _ m ih =>
    intro hm
    rw [msbIdx_eq]
    by_cases h2 : m < 2
    · rw [if_pos h2]
      simp
      omega
    · rw [if_neg h2]
      obtain ⟨ha, hb⟩ := ih (m / 2) (by omega) (by omega)
      set k := msbIdx (m / 2) with hk
      have e1 : (2 : Nat) ^ (k + 1) = 2 * 2 ^ k := by ring
      have e2 : (2 : Nat) ^ (k + 1 + 1) = 2 * 2 ^ (k + 1) := by ring
      omega

theorem msbIdx_testBit {m : Nat} (hm : m ≠ 0) : m.testBit (msbIdx m) = true := by
  obtain ⟨h1, h2⟩ := msbIdx_bounds hm
  have hpos : (0 : Nat) < 2 ^ msbIdx m := Nat.pos_pow_of_pos _ (by omega)
  have hdiv : m / 2 ^ msbIdx m = 1 := by
    have hge : 1 ≤ m / 2 ^ msbIdx m := (Nat.le_div_iff_mul_le hpos).mpr (by omega)
    have hlt : m / 2 ^ msbIdx m < 2 := by
      rw [Nat.div_lt_iff_lt_mul hpos]
      have : (2 : Nat) ^ (msbIdx m + 1) = 2 ^ msbIdx m * 2 := by ring
      omega
    omega
  rw [Nat.testBit_to_div_mod, hdiv]
  decide

theorem msbIdx_max {m : Nat} {j : Nat} (hj : m.testBit j = true) : j ≤ msbIdx m := by
  have hm : m ≠ 0 := by
    intro h
    subst h
    simp at hj
  obtain ⟨h1, h2⟩ := msbIdx_bounds hm
  have hge := Nat.testBit_implies_ge hj
  by_contra hgt
  have : 2 ^ (msbIdx m + 1) ≤ 2 ^ j := Nat.pow_le_pow_right (by omega) (by omega)
  omega

/-! ### The straight window scan (claim C4) -/

theorem land_window_iff (b i : Nat) :
    (b &&& (0x1F <<< i) = 0x1F <<< i) ↔ fullWindow b i := by
  have hmaskbit : ∀ j, (0x1F <<< i : Nat).testBit j = (decide (i ≤ j) && decide (j ≤ i + 4)) := by
    intro j
    rw [Nat.testBit_shiftLeft]
    have h31 : (0x1F : Nat) = 2 ^ 5 - 1 := by norm_num
    rw [h31, Nat.testBit_two_pow_sub_one]
    by_cases hij : i ≤ j
    · have h1 : decide (j ≥ i) = true := by simp [hij]
      rw [h1, Bool.true_and, Bool.true_and]
      rw [decide_eq_decide]
      omega
    · have h1 : decide (j ≥ i) = false := by
        simp
        omega
      rw [h1, Bool.false_and, Bool.false_and]
  constructor
  · intro h j hij hji
    have hcongr := congrArg (fun x => x.testBit j) h
    simp only [Nat.testBit_and] at hcongr
    have hmask : (0x1F <<< i : Nat).testBit j = true := by
      rw [hmaskbit j]
      simp [hij, hji]
    rw [hmask] at hcongr
    simpa using hcongr
  · intro h
    apply Nat.eq_of_testBit_eq
    intro j
    rw [Nat.testBit_and, hmaskbit j]
    by_cases hij : i ≤ j
    · by_cases hji : j ≤ i + 4
      · rw [h j hij hji]
        simp
      · simp [hji]
    · simp [hij]

theorem straightLoop_eq_none :
    ∀ (n b : Nat), straightLoop b n = none ↔ ∀ i, i < n → ¬fullWindow b i := by
  intro n
  induction n with
  | zero =>
    intro b
    simp [straightLoop]
  | succ n ih =>
    intro b
    rw [straightLoop]
    by_cases hc : b &&& (0x1F <<< n) = 0x1F <<< n
    · rw [if_pos hc]
      constructor
      · intro h
        exact absurd h (by simp)
      · intro h
        exact absurd (land_window_iff b n |>.mp hc) (h n (by omega))
    · rw [if_neg hc, ih b]
      constructor
      · intro h i hi
        rcases Nat.lt_succ_iff_lt_or_eq.mp hi with h1 | h1
        · exact h i h1
        · subst h1
          exact fun hf => hc ((land_window_iff b i).mpr hf)
      · intro h i hi
        exact h i (by omega)

theorem straightLoop_eq_some :
    ∀ (n b : Nat) (r : Rank), straightLoop b n = some r ↔
      ∃ i, i < n ∧ fullWindow b i ∧ (∀ j, i < j → j < n → ¬fullWindow b j) ∧
        r = Rank.id (i + 4) := by
  intro n
  induction n with
  | zero =>
    intro b r
    simp [straightLoop]
  | succ n ih =>
    intro b r
    rw [straightLoop]
    by_cases hc : b &&& (0x1F <<< n) = 0x1F <<< n
    · rw [if_pos hc]
      constructor
      · intro h
        have hr : r = Rank.id (n + 4) := (Option.some.inj h).symm
        exact ⟨n, by omega, (land_window_iff b n).mp hc,
          fun j hj1 hj2 => by omega, hr⟩
      · rintro ⟨i, hi, hfull, hmax, hr⟩
        have hieq : i = n := by
          by_contra hne
          exact hmax n (by omega) (by omega) ((land_window_iff b n).mp hc)
        subst hieq
        rw [hr]
    · rw [if_neg hc, ih b r]
      have hnofull : ¬fullWindow b n := fun h => hc ((land_window_iff b n).mpr h)
      constructor
      · rintro ⟨i, hi, hfull, hmax, hr⟩
        refine ⟨i, by omega, hfull, fun j hj1 hj2 => ?_, hr⟩
        rcases Nat.lt_succ_iff_lt_or_eq.mp hj2 with h1 | h1
        · exact hmax j hj1 h1
        · subst h1
          exact hnofull
      · rintro ⟨i, hi, hfull, hmax, hr⟩
        have hin : i < n := by
          rcases Nat.lt_succ_iff_lt_or_eq.mp hi with h1 | h1
          · exact h1
          · subst h1
            exact absurd hfull hnofull
        exact ⟨i, hin, hfull, fun j hj1 hj2 => hmax j hj1 (by omega), hr⟩

/-- Claim C4: `best_straight` returns `some (Rank.id (i + 4))` for the
greatest `i ≤ 9` whose 5-bit window `i ..= i+4` is fully set, `none` when
no window is full; and on the wheel hand {2♥,3♣} + {2♦,5♦,A♥,5♣,4♣} the
Ace-mirror bit makes `best()` return `Straight(Five)`. -/
theorem best_straight_spec :
    (∀ b : Nat, ∀ r : Rank, best_straight b = some r ↔
      ∃ i, i ≤ 9 ∧ fullWindow b i ∧ (∀ j, i < j → j ≤ 9 → ¬fullWindow b j) ∧
        r = Rank.id (i + 4)) ∧
    (∀ b : Nat, best_straight b = none ↔ ∀ i, i ≤ 9 → ¬fullWindow b i) ∧
    Hand.best (Hand.new [⟨.Two, .Hearts⟩, ⟨.Three, .Clubs⟩]
      [⟨.Two, .Diamonds⟩, ⟨.Five, .Diamonds⟩, ⟨.Ace, .Hearts⟩, ⟨.Five, .Clubs⟩,
       ⟨.Four, .Clubs⟩]) = .Straight .Five := by
  refine ⟨?_, ?_, by decide⟩
  · intro b r
    rw [best_straight, straightLoop_eq_some 10 b r]
    constructor
    · rintro ⟨i, hi, hfull, hmax, hr⟩
      exact ⟨i, by omega, hfull, fun j hj1 hj2 => hmax j hj1 (by omega), hr⟩
    · rintro ⟨i, hi, hfull, hmax, hr⟩
      exact ⟨i, by omega, hfull, fun j hj1 hj2 => hmax j hj1 (by omega), hr⟩
  · intro b
    rw [best_straight, straightLoop_eq_none 10 b]
    constructor
    · intro h i hi
      exact h i (by omega)
    · intro h i hi
      exact h i (by omega)

/-! ### The high-card scenario (claim C9) -/

/-- Claim C9 counterexample: on hole {A♥,9♣} and board {K♦,6♠,8♥,4♣,3♠},
`best()` does not return HighCard with the kicker-mask of the rank set
{A, K, 8, 6, 4} (bits 13, 12, 7, 5, 3) — the Nine outranks both the Four
and the Three, so the claimed mask misses bit 8 and wrongly keeps bit 3. -/
theorem high_card_mask_counterexample :
    Hand.best (Hand.new [⟨.Ace, .Hearts⟩, ⟨.Nine, .Clubs⟩]
      [⟨.King, .Diamonds⟩, ⟨.Six, .Spades⟩, ⟨.Eight, .Hearts⟩, ⟨.Four, .Clubs⟩,
       ⟨.Three, .Spades⟩]) ≠
    .HighCard ((1 <<< 13) ||| (1 <<< 12) ||| (1 <<< 7) ||| (1 <<< 5) ||| (1 <<< 3)) := by
  decide

/-- Claim C9 amended: on hole {A♥,9♣} and board {K♦,6♠,8♥,4♣,3♠}, `best()`
returns HighCard with the kicker-mask of the five highest ranks present,
{A, K, 9, 8, 6} (bits 13, 12, 8, 7, 5) — matching the repository's own
`check_high_card` test value `0b11_0001_1010_0000`. -/
theorem high_card_mask_amended :
    Hand.best (Hand.new [⟨.Ace, .Hearts⟩, ⟨.Nine, .Clubs⟩]
      [⟨.King, .Diamonds⟩, ⟨.Six, .Spades⟩, ⟨.Eight, .Hearts⟩, ⟨.Four, .Clubs⟩,
       ⟨.Three, .Spades⟩]) =
    .HighCard ((1 <<< 13) ||| (1 <<< 12) ||| (1 <<< 8) ||| (1 <<< 7) ||| (1 <<< 5)) := by
  decide

/-! ### Rank and card bookkeeping -/

theorem Rank.id_score (r : Rank) : Rank.id r.score = r := by
  cases r <;> rfl

theorem Rank.score_inj {r s : Rank} (h : r.score = s.score) : r = s := by
  revert h
  cases r <;> cases s <;> decide

theorem Rank.score_bounds (r : Rank) : 1 ≤ r.score ∧ r.score ≤ 13 := by
  cases r <;> decide

theorem mem_allRanks (r : Rank) : r ∈ allRanks := by
  cases r <;> decide

theorem allRanks_nodup : allRanks.Nodup := by decide

theorem mem_allSuits (s : Suit) : s ∈ allSuits := by
  cases s <;> decide

theorem allSuits_nodup : allSuits.Nodup := by decide

/-- The per-card accumulation step of `Hand::new`, written as a single
bitwise or with the card's mask. -/
theorem newBitmask_step :
    (fun (b : Nat) (c : Card) =>
      let b2 := b ||| (1 <<< c.score)
      if c.score = 13 then b2 ||| 0x01 else b2) =
    fun (b : Nat) (c : Card) => b ||| cardMask c := by
  funext b c
  by_cases h : c.score = 13
  · simp [cardMask, h, Nat.or_assoc]
  · simp [cardMask, h]

theorem foldl_orMask_testBit :
    ∀ (l : List Card) (b0 : Nat) (i : Nat),
      (l.foldl (fun b c => b ||| cardMask c) b0).testBit i =
        (b0.testBit i || l.any (fun c => (cardMask c).testBit i)) := by
  intro l
  induction l with
  | nil =>
    intro b0 i
    simp
  | cons c cs ih =>
    intro b0 i
    rw [List.foldl_cons, ih, List.any_cons, Nat.testBit_or, Bool.or_assoc]

theorem cardMask_testBit_iff (c : Card) (i : Nat) :
    (cardMask c).testBit i = true ↔ (i = c.score ∨ (c.score = 13 ∧ i = 0)) := by
  rw [cardMask]
  by_cases h : c.score = 13
  · rw [if_pos h, Nat.testBit_or, Nat.one_shiftLeft, Nat.testBit_two_pow]
    have h1 : (0x01 : Nat) = 2 ^ 0 := rfl
    rw [h1, Nat.testBit_two_pow]
    simp only [Bool.or_eq_true, decide_eq_true_eq]
    omega
  · rw [if_neg h, Nat.or_zero, Nat.one_shiftLeft, Nat.testBit_two_pow]
    simp only [decide_eq_true_eq]
    omega

theorem newBitmask_testBit_iff (cards : List Card) (i : Nat) :
    (newBitmask cards).testBit i = true ↔
      ∃ c ∈ cards, (i = c.score ∨ (c.score = 13 ∧ i = 0)) := by
  rw [newBitmask, newBitmask_step, foldl_orMask_testBit]
  simp only [Nat.zero_testBit, Bool.false_or, List.any_eq_true]
  constructor
  · rintro ⟨c, hc, hbit⟩
    exact ⟨c, hc, (cardMask_testBit_iff c i).mp hbit⟩
  · rintro ⟨c, hc, hor⟩
    exact ⟨c, hc, (cardMask_testBit_iff c i).mpr hor⟩

/-- Summing the per-rank counts over the thirteen ranks counts each card
exactly once. -/
theorem rank_count_sum :
    ∀ cards : List Card,
      (allRanks.map (fun r => cards.countP (fun c => decide (c.rank = r)))).sum =
        cards.length := by
  intro cards
  induction cards with
  | nil => simp [allRanks]
  | cons c cs ih =>
    simp only [List.countP_cons, allRanks, List.map_cons, List.map_nil,
      List.sum_cons, List.sum_nil, List.length_cons] at ih ⊢
    cases hr : c.rank <;> simp [hr] <;> omega

/-- Summing the per-suit counts over the four suits counts each card
exactly once. -/
theorem suit_count_sum :
    ∀ cards : List Card,
      (allSuits.map (fun s => cards.countP (fun c => decide (c.suit = s)))).sum =
        cards.length := by
  intro cards
  induction cards with
  | nil => simp [allSuits]
  | cons c cs ih =>
    simp only [List.countP_cons, allSuits, List.map_cons, List.map_nil,
      List.sum_cons, List.sum_nil, List.length_cons] at ih ⊢
    cases hs : c.suit <;> simp [hs] <;> omega

theorem two_mem_map_sum_le {α : Type} (f : α → Nat) :
    ∀ (l : List α), l.Nodup → ∀ a b, a ∈ l → b ∈ l → a ≠ b →
      f a + f b ≤ (l.map f).sum := by
  intro l
  induction l with
  | nil =>
    intro _ a b ha
    exact absurd ha (List.not_mem_nil a)
  | cons x xs ih =>
    intro hnd a b ha hb hab
    rw [List.nodup_cons] at hnd
    rw [List.map_cons, List.sum_cons]
    rcases List.mem_cons.mp ha with rfl | ha2
    · rcases List.mem_cons.mp hb with rfl | hb2
      · exact absurd rfl hab
      · have hble : f b ≤ (xs.map f).sum :=
          List.single_le_sum (fun x _ => Nat.zero_le x) (f b)
            (List.mem_map_of_mem f hb2)
        omega
    · rcases List.mem_cons.mp hb with rfl | hb2
      · have hale : f a ≤ (xs.map f).sum :=
          List.single_le_sum (fun x _ => Nat.zero_le x) (f a)
            (List.mem_map_of_mem f ha2)
        omega
      · have := ih hnd.2 a b ha2 hb2 hab
        omega

theorem find?_eq_some_of_unique {α : Type} {p : α → Bool} :
    ∀ (l : List α) (a : α), a ∈ l → p a = true →
      (∀ b ∈ l, p b = true → b = a) → l.find? p = some a := by
  intro l
  induction l with
  | nil =>
    intro a ha
    exact absurd ha (List.not_mem_nil a)
  | cons x xs ih =>
    intro a ha hpa huniq
    by_cases hx : p x = true
    · rw [List.find?_cons_of_pos _ hx, huniq x (List.mem_cons_self x xs) hx]
    · rw [List.find?_cons_of_neg _ (by simp [hx])]
      rcases List.mem_cons.mp ha with rfl | ha2
      · exact absurd hpa hx
      · exact ih a ha2 hpa (fun b hb hpb => huniq b (List.mem_cons_of_mem x hb) hpb)

/-- Claim C5: on every 7-card hand in which some rank occurs exactly four
times, `best()` returns `Quads q k` where `q` is that rank and `k` is the
highest rank present among the remaining three cards; in particular hole
{K♥,K♣} with board {K♦,K♠,9♥,2♥,9♣} yields `Quads King Nine`. -/
theorem best_quads_spec :
    (∀ (hole board : List Card) (q : Rank),
      (hole ++ board).length = 7 →
      (Hand.new hole board).rank_map q = 4 →
      ∃ k : Rank,
        Hand.best (Hand.new hole board) = .Quads q k ∧
        (∃ c ∈ hole ++ board, c.rank = k ∧ c.rank ≠ q) ∧
        (∀ c ∈ hole ++ board, c.rank ≠ q → c.rank.score ≤ k.score)) ∧
    Hand.best (Hand.new [⟨.King, .Hearts⟩, ⟨.King, .Clubs⟩]
      [⟨.King, .Diamonds⟩, ⟨.King, .Spades⟩, ⟨.Nine, .Hearts⟩, ⟨.Two, .Hearts⟩,
       ⟨.Nine, .Clubs⟩]) = .Quads .King .Nine := by
  refine ⟨?_, by decide⟩
  intro hole board q hlen hq
  have hrm : ∀ r, (Hand.new hole board).rank_map r =
      (hole ++ board).countP (fun c => decide (c.rank = r)) := fun r => rfl
  have hbm : (Hand.new hole board).bitmask = newBitmask (hole ++ board) := rfl
  have huniq : ∀ r, (Hand.new hole board).rank_map r = 4 → r = q := by
    intro r hr
    by_contra hne
    have hsum := rank_count_sum (hole ++ board)
    have hle := two_mem_map_sum_le
      (fun r => (hole ++ board).countP (fun c => decide (c.rank = r)))
      allRanks allRanks_nodup r q (mem_allRanks r) (mem_allRanks q) hne
    rw [hsum, hlen] at hle
    rw [hrm r] at hr
    rw [hrm q] at hq
    simp only at hle
    omega
  have hfind : allRanks.find? (fun c => decide ((Hand.new hole board).rank_map c = 4)) =
      some q := by
    apply find?_eq_some_of_unique allRanks q (mem_allRanks q) (by simp [hq])
    intro b _ hpb
    exact huniq b (by simpa using hpb)
  have hbmq : (Hand.new hole board).bitmask.testBit q.score = true := by
    have hpos : 0 < (hole ++ board).countP (fun c => decide (c.rank = q)) := by
      rw [← hrm q]
      omega
    obtain ⟨c, hc, hcq⟩ := List.countP_pos_iff.mp hpos
    have hcq2 : c.rank = q := by simpa using hcq
    rw [hbm, newBitmask_testBit_iff]
    refine ⟨c, hc, Or.inl ?_⟩
    show q.score = c.rank.score
    rw [hcq2]
  have hmaskbit : ∀ i,
      ((Hand.new hole board).bitmask ^^^ (1 <<< q.score)).testBit i =
        (((Hand.new hole board).bitmask.testBit i).xor (decide (q.score = i))) := by
    intro i
    rw [Nat.testBit_xor, Nat.one_shiftLeft, Nat.testBit_two_pow]
  have hex : ∃ c ∈ hole ++ board, c.rank ≠ q := by
    have hcnt : (hole ++ board).length =
        (hole ++ board).countP (fun c => decide (c.rank = q)) +
        (hole ++ board).countP (fun c => !decide (c.rank = q)) := by
      simpa using List.length_eq_countP_add_countP
        (fun c => decide (c.rank = q)) (l := hole ++ board)
    have hpos : 0 < (hole ++ board).countP (fun c => !decide (c.rank = q)) := by
      rw [← hrm q] at hcnt
      rw [hlen, hq] at hcnt
      omega
    obtain ⟨c, hc, hcq⟩ := List.countP_pos_iff.mp hpos
    exact ⟨c, hc, by simpa using hcq⟩
  obtain ⟨c0, hc0, hc0ne⟩ := hex
  have hpresent : ∀ c ∈ hole ++ board, c.rank ≠ q →
      ((Hand.new hole board).bitmask ^^^ (1 <<< q.score)).testBit c.score = true := by
    intro c hc hne
    rw [hmaskbit]
    have h1 : (Hand.new hole board).bitmask.testBit c.score = true := by
      rw [hbm, newBitmask_testBit_iff]
      exact ⟨c, hc, Or.inl rfl⟩
    have h2 : q.score ≠ c.score := by
      intro he
      exact hne ((Rank.score_inj he.symm).symm ▸ rfl)
    rw [h1]
    simp [h2]
  have hmaskne : (Hand.new hole board).bitmask ^^^ (1 <<< q.score) ≠ 0 := by
    intro h0
    have hbit := hpresent c0 hc0 hc0ne
    rw [h0] at hbit
    simp at hbit
  have hMbit : ((Hand.new hole board).bitmask ^^^ (1 <<< q.score)).testBit
      (msbIdx ((Hand.new hole board).bitmask ^^^ (1 <<< q.score))) = true :=
    msbIdx_testBit hmaskne
  have hMge : c0.score ≤ msbIdx ((Hand.new hole board).bitmask ^^^ (1 <<< q.score)) :=
    msbIdx_max (hpresent c0 hc0 hc0ne)
  have hM1 : 1 ≤ msbIdx ((Hand.new hole board).bitmask ^^^ (1 <<< q.score)) := by
    have := (Rank.score_bounds c0.rank).1
    have hsc : c0.score = c0.rank.score := rfl
    omega
  have hMdecode : ∃ c ∈ hole ++ board,
      c.score = msbIdx ((Hand.new hole board).bitmask ^^^ (1 <<< q.score)) ∧
      c.rank ≠ q := by
    set M := msbIdx ((Hand.new hole board).bitmask ^^^ (1 <<< q.score)) with hMdef
    have hMx := hMbit
    rw [hmaskbit] at hMx
    by_cases hqM : q.score = M
    · rw [← hqM] at hMx
      rw [hbmq] at hMx
      simp at hMx
    · have hbmM : (Hand.new hole board).bitmask.testBit M = true := by
        rcases hb : (Hand.new hole board).bitmask.testBit M with _ | _
        · rw [hb] at hMx
          simp [hqM] at hMx
        · rfl
      rw [hbm, newBitmask_testBit_iff] at hbmM
      obtain ⟨c, hc, hcor⟩ := hbmM
      rcases hcor with h1 | h2
      · refine ⟨c, hc, h1.symm, ?_⟩
        intro hrq
        apply hqM
        have h3 : c.score = q.score := by
          show c.rank.score = q.score
          rw [hrq]
        omega
      · omega
  obtain ⟨ck, hck, hckM, hckne⟩ := hMdecode
  have hmax : ∀ c ∈ hole ++ board, c.rank ≠ q →
      c.score ≤ msbIdx ((Hand.new hole board).bitmask ^^^ (1 <<< q.score)) :=
    fun c hc hne => msbIdx_max (hpresent c hc hne)
  refine ⟨ck.rank, ?_, ⟨ck, hck, rfl, hckne⟩, ?_⟩
  · show (Hand.new hole board).bestWith allRanks allSuits = _
    unfold Hand.bestWith
    rw [hfind]
    have hfin : Rank.id (msbIdx ((Hand.new hole board).bitmask ^^^ (1 <<< q.score))) =
        ck.rank := by
      rw [← hckM]
      exact Rank.id_score ck.rank
    simp only [hfin]
  · intro c hc hne
    have h1 := hmax c hc hne
    have h2 : c.score = c.rank.score := rfl
    have h3 : ck.score = ck.rank.score := rfl
    omega

/-- Witness for C5: the kings-quads hand satisfies the hypotheses, and the
theorem produces the Quads result for it. -/
theorem best_quads_spec_witness :
    (([⟨Rank.King, Suit.Hearts⟩, ⟨Rank.King, Suit.Clubs⟩] ++
      [⟨Rank.King, Suit.Diamonds⟩, ⟨Rank.King, Suit.Spades⟩, ⟨Rank.Nine, Suit.Hearts⟩,
       ⟨Rank.Two, Suit.Hearts⟩, ⟨Rank.Nine, Suit.Clubs⟩] : List Card).length = 7) ∧
    ((Hand.new [⟨Rank.King, Suit.Hearts⟩, ⟨Rank.King, Suit.Clubs⟩]
      [⟨Rank.King, Suit.Diamonds⟩, ⟨Rank.King, Suit.Spades⟩, ⟨Rank.Nine, Suit.Hearts⟩,
       ⟨Rank.Two, Suit.Hearts⟩, ⟨Rank.Nine, Suit.Clubs⟩]).rank_map .King = 4) ∧
    (∃ k : Rank,
      Hand.best (Hand.new [⟨Rank.King, Suit.Hearts⟩, ⟨Rank.King, Suit.Clubs⟩]
        [⟨Rank.King, Suit.Diamonds⟩, ⟨Rank.King, Suit.Spades⟩, ⟨Rank.Nine, Suit.Hearts⟩,
         ⟨Rank.Two, Suit.Hearts⟩, ⟨Rank.Nine, Suit.Clubs⟩]) = .Quads .King k ∧
      (∃ c ∈ ([⟨Rank.King, Suit.Hearts⟩, ⟨Rank.King, Suit.Clubs⟩] ++
        [⟨Rank.King, Suit.Diamonds⟩, ⟨Rank.King, Suit.Spades⟩, ⟨Rank.Nine, Suit.Hearts⟩,
         ⟨Rank.Two, Suit.Hearts⟩, ⟨Rank.Nine, Suit.Clubs⟩] : List Card),
        c.rank = k ∧ c.rank ≠ .King) ∧
      (∀ c ∈ ([⟨Rank.King, Suit.Hearts⟩, ⟨Rank.King, Suit.Clubs⟩] ++
        [⟨Rank.King, Suit.Diamonds⟩, ⟨Rank.King, Suit.Spades⟩, ⟨Rank.Nine, Suit.Hearts⟩,
         ⟨Rank.Two, Suit.Hearts⟩, ⟨Rank.Nine, Suit.Clubs⟩] : List Card),
        c.rank ≠ .King → c.rank.score ≤ k.score)) :=
  ⟨by decide, by decide,
   best_quads_spec.1 [⟨Rank.King, Suit.Hearts⟩, ⟨Rank.King, Suit.Clubs⟩]
     [⟨Rank.King, Suit.Diamonds⟩, ⟨Rank.King, Suit.Spades⟩, ⟨Rank.Nine, Suit.Hearts⟩,
      ⟨Rank.Two, Suit.Hearts⟩, ⟨Rank.Nine, Suit.Clubs⟩] .King (by decide) (by decide)⟩

/-! ### Purity of the evaluator (claim C8) -/

theorem Rank.toNat_inj {r s : Rank} (h : r.toNat = s.toNat) : r = s := by
  revert h
  cases r <;> cases s <;> decide

instance : IsTotal Rank (fun a b => a.toNat ≤ b.toNat) :=
  ⟨fun a b => Nat.le_total a.toNat b.toNat⟩

instance : IsTrans Rank (fun a b => a.toNat ≤ b.toNat) :=
  ⟨fun _ _ _ h1 h2 => Nat.le_trans h1 h2⟩

instance : IsAntisymm Rank (fun a b => a.toNat ≤ b.toNat) :=
  ⟨fun _ _ h1 h2 => Rank.toNat_inj (Nat.le_antisymm h1 h2)⟩

theorem sortDescRank_perm_eq {l1 l2 : List Rank} (hp : l1.Perm l2) :
    sortDescRank l1 = sortDescRank l2 := by
  unfold sortDescRank
  congr 1
  refine List.eq_of_perm_of_sorted ?_
    (List.sorted_insertionSort (fun a b : Rank => a.toNat ≤ b.toNat) l1)
    (List.sorted_insertionSort (fun a b : Rank => a.toNat ≤ b.toNat) l2)
  exact (List.perm_insertionSort _ l1).trans (hp.trans (List.perm_insertionSort _ l2).symm)

theorem perm_eq_of_length_one {α : Type} {l1 l2 : List α} (hp : l1.Perm l2)
    (h1 : l1.length = 1) : l1 = l2 := by
  have h2 : l2.length = 1 := hp.length_eq ▸ h1
  obtain ⟨a, rfl⟩ := List.length_eq_one.mp h2
  exact hp.eq_singleton

theorem newBitmask_perm {l1 l2 : List Card} (hp : l1.Perm l2) :
    newBitmask l1 = newBitmask l2 := by
  apply Nat.eq_of_testBit_eq
  intro i
  rw [Bool.eq_iff_iff]
  rw [show ((newBitmask l1).testBit i : Prop) = ((newBitmask l1).testBit i = true) from rfl]
  rw [show ((newBitmask l2).testBit i : Prop) = ((newBitmask l2).testBit i = true) from rfl]
  rw [newBitmask_testBit_iff, newBitmask_testBit_iff]
  constructor
  · rintro ⟨c, hc, hor⟩
    exact ⟨c, hp.mem_iff.mp hc, hor⟩
  · rintro ⟨c, hc, hor⟩
    exact ⟨c, hp.mem_iff.mpr hc, hor⟩

/-- The guarded accumulation step of `check_flush`, as a filter-or step. -/
theorem flushBitmask_step (s : Suit) :
    (fun (b : Nat) (c : Card) =>
      if c.suit = s then
        let b2 := b ||| (1 <<< c.score)
        if c.score = 13 then b2 ||| 0x01 else b2
      else b) =
    fun (b : Nat) (c : Card) =>
      if decide (c.suit = s) = true then b ||| cardMask c else b := by
  funext b c
  by_cases h : c.suit = s
  · by_cases h13 : c.score = 13 <;> simp [cardMask, h, h13, Nat.or_assoc]
  · simp [h]

theorem foldl_guard_filter (s : Suit) :
    ∀ (l : List Card) (b0 : Nat),
      l.foldl (fun b c => if decide (c.suit = s) = true then b ||| cardMask c else b) b0 =
        (l.filter (fun c => decide (c.suit = s))).foldl
          (fun b c => b ||| cardMask c) b0 := by
  intro l
  induction l with
  | nil =>
    intro b0
    rfl
  | cons c cs ih =>
    intro b0
    simp only [List.foldl_cons, List.filter_cons]
    by_cases h : c.suit = s
    · have h1 : decide (c.suit = s) = true := by simp [h]
      rw [if_pos h1, if_pos h1, List.foldl_cons]
      exact ih _
    · have h1 : ¬(decide (c.suit = s) = true) := by simp [h]
      rw [if_neg h1, if_neg h1]
      exact ih b0

theorem flushBitmask_eq_filter (cards : List Card) (s : Suit) :
    flushBitmask cards s =
      newBitmask (cards.filter (fun c => decide (c.suit = s))) := by
  rw [flushBitmask, flushBitmask_step s, foldl_guard_filter s, newBitmask, newBitmask_step]

theorem flushBitmask_perm {l1 l2 : List Card} (hp : l1.Perm l2) (s : Suit) :
    flushBitmask l1 s = flushBitmask l2 s := by
  rw [flushBitmask_eq_filter, flushBitmask_eq_filter]
  exact newBitmask_perm (hp.filter _)

theorem find?_congr_unique {α : Type} {p : α → Bool} {l1 l2 : List α}
    (hperm : l1.Perm l2)
    (huni : ∀ a b, p a = true → p b = true → a = b) :
    l1.find? p = l2.find? p := by
  cases hf : l1.find? p with
  | none =>
    rw [List.find?_eq_none] at hf
    symm
    rw [List.find?_eq_none]
    intro x hx
    exact hf x (hperm.mem_iff.mpr hx)
  | some a =>
    have hpa := List.find?_some hf
    have hma := List.mem_of_find?_eq_some hf
    symm
    exact find?_eq_some_of_unique l2 a (hperm.mem_iff.mp hma) hpa
      (fun b _ hpb => huni b a hpb hpa)

/-- `bestWith` is insensitive to the hash iteration orders and depends on
the cards only through the bitmask, the two count maps and the per-suit
flush bitmasks, provided the hand has 7 cards (so that at most one rank
can reach count 4 and at most one suit count 5). -/
theorem bestWith_congr (rord : List Rank) (sord : List Suit) (h1 h2 : Hand)
    (hbm : h1.bitmask = h2.bitmask)
    (hrm : h1.rank_map = h2.rank_map)
    (hsm : h1.suit_map = h2.suit_map)
    (hfb : ∀ s, flushBitmask h1.cards s = flushBitmask h2.cards s)
    (hr : rord.Perm allRanks) (hs : sord.Perm allSuits)
    (hsumr : (allRanks.map (fun r => h1.rank_map r)).sum = 7)
    (hsums : (allSuits.map (fun s => h1.suit_map s)).sum = 7) :
    h1.bestWith rord sord = h2.bestWith allRanks allSuits := by
  have huq : ∀ a b : Rank, decide (h1.rank_map a = 4) = true →
      decide (h1.rank_map b = 4) = true → a = b := by
    intro a b ha hb
    by_contra hne
    have hle := two_mem_map_sum_le (fun r => h1.rank_map r) allRanks allRanks_nodup
      a b (mem_allRanks a) (mem_allRanks b) hne
    rw [hsumr] at hle
    have ha4 := of_decide_eq_true ha
    have hb4 := of_decide_eq_true hb
    simp only at hle
    omega
  have hus : ∀ a b : Suit, decide (5 ≤ h1.suit_map a) = true →
      decide (5 ≤ h1.suit_map b) = true → a = b := by
    intro a b ha hb
    by_contra hne
    have hle := two_mem_map_sum_le (fun s => h1.suit_map s) allSuits allSuits_nodup
      a b (mem_allSuits a) (mem_allSuits b) hne
    rw [hsums] at hle
    have ha5 := of_decide_eq_true ha
    have hb5 := of_decide_eq_true hb
    simp only at hle
    omega
  simp only [Hand.bestWith, Hand.check_flush]
  rw [← hrm, ← hbm, ← hsm]
  rw [find?_congr_unique hr huq]
  cases hfq : allRanks.find? (fun c => decide (h1.rank_map c = 4)) with
  | some c => rfl
  | none =>
    have hpairp : (rord.filter (fun c => decide (h1.rank_map c = 2))).Perm
        (allRanks.filter (fun c => decide (h1.rank_map c = 2))) := hr.filter _
    have hstp : (rord.filter (fun c => decide (h1.rank_map c = 3))).Perm
        (allRanks.filter (fun c => decide (h1.rank_map c = 3))) := hr.filter _
    have hlst : (rord.filter (fun c => decide (h1.rank_map c = 3))).length =
        (allRanks.filter (fun c => decide (h1.rank_map c = 3))).length := hstp.length_eq
    have hlp : (rord.filter (fun c => decide (h1.rank_map c = 2))).length =
        (allRanks.filter (fun c => decide (h1.rank_map c = 2))).length := hpairp.length_eq
    have hpnil : (rord.filter (fun c => decide (h1.rank_map c = 2)) ≠ []) =
        (allRanks.filter (fun c => decide (h1.rank_map c = 2)) ≠ []) := by
      apply propext
      constructor <;> intro hne he <;> apply hne
      · apply List.length_eq_zero.mp
        rw [hlp, he]
        rfl
      · apply List.length_eq_zero.mp
        rw [← hlp, he]
        rfl
    rw [hlst]
    by_cases h2s : (allRanks.filter (fun c => decide (h1.rank_map c = 3))).length = 2
    · rw [if_pos h2s, if_pos h2s, sortDescRank_perm_eq hstp]
    · rw [if_neg h2s, if_neg h2s]
      simp only [hpnil]
      by_cases h1s : (allRanks.filter (fun c => decide (h1.rank_map c = 3))).length = 1 ∧
          (allRanks.filter (fun c => decide (h1.rank_map c = 2))) ≠ []
      · rw [if_pos h1s, if_pos h1s]
        have hsteq : rord.filter (fun c => decide (h1.rank_map c = 3)) =
            allRanks.filter (fun c => decide (h1.rank_map c = 3)) :=
          perm_eq_of_length_one hstp (by rw [hlst]; exact h1s.1)
        rw [hsteq, sortDescRank_perm_eq hpairp]
      · rw [if_neg h1s, if_neg h1s]
        rw [find?_congr_unique hs hus]
        cases hfs : allSuits.find? (fun s => decide (5 ≤ h1.suit_map s)) with
        | some s0 =>
          dsimp only
          rw [hfb s0]
          cases best_straight (flushBitmask h2.cards s0) with
          | some card =>
            dsimp only
            by_cases hace : card = Rank.Ace
            · rw [if_pos hace]
            · rw [if_neg hace]
          | none => rfl
        | none =>
          dsimp only
          cases hbs : best_straight h1.bitmask with
          | some card => rfl
          | none =>
            by_cases hst1 : (allRanks.filter (fun c => decide (h1.rank_map c = 3))).length = 1
            · rw [if_pos hst1, if_pos hst1]
              have hsteq : rord.filter (fun c => decide (h1.rank_map c = 3)) =
                  allRanks.filter (fun c => decide (h1.rank_map c = 3)) :=
                perm_eq_of_length_one hstp (by rw [hlst]; exact hst1)
              rw [hsteq]
              obtain ⟨a, ha⟩ := List.length_eq_one.mp hst1
              rw [ha]
              rfl
            · rw [if_neg hst1, if_neg hst1]
              simp only [afterStraight]
              rw [hlp]
              by_cases hp2 : (allRanks.filter (fun c => decide (h1.rank_map c = 2))).length > 1
              · rw [if_pos hp2, if_pos hp2, sortDescRank_perm_eq hpairp]
              · rw [if_neg hp2, if_neg hp2]
                by_cases hpn : allRanks.filter (fun c => decide (h1.rank_map c = 2)) = []
                · have hln : rord.filter (fun c => decide (h1.rank_map c = 2)) = [] := by
                    apply List.length_eq_zero.mp
                    rw [hlp, hpn]
                    rfl
                  rw [hln, hpn]
                · have hlen1 : (allRanks.filter (fun c => decide (h1.rank_map c = 2))).length = 1 := by
                    have hne0 : (allRanks.filter (fun c => decide (h1.rank_map c = 2))).length ≠ 0 :=
                      fun h => hpn (List.length_eq_zero.mp h)
                    omega
                  have heq2 : rord.filter (fun c => decide (h1.rank_map c = 2)) =
                      allRanks.filter (fun c => decide (h1.rank_map c = 2)) :=
                    perm_eq_of_length_one hpairp (by rw [hlp]; exact hlen1)
                  rw [heq2]

/-- Claim C8: `best()` is a pure function of the multiset of the 7 input
cards — for any hash-map iteration orders (modelled as permutations of the
rank and suit lists) and any redistribution or reordering of the same 7
cards between hole and board, the evaluation result is unchanged. -/
theorem best_pure_function (rord : List Rank) (sord : List Suit)
    (hole1 board1 hole2 board2 : List Card)
    (hr : rord.Perm allRanks) (hs : sord.Perm allSuits)
    (hp : (hole1 ++ board1).Perm (hole2 ++ board2))
    (hlen : (hole1 ++ board1).length = 7) :
    (Hand.new hole1 board1).bestWith rord sord =
      (Hand.new hole2 board2).bestWith allRanks allSuits := by
  apply bestWith_congr
  · exact newBitmask_perm hp
  · funext r
    exact hp.countP_eq _
  · funext s
    exact hp.countP_eq _
  · intro s
    exact flushBitmask_perm hp s
  · exact hr
  · exact hs
  · have he : allRanks.map (fun r => (Hand.new hole1 board1).rank_map r) =
        allRanks.map (fun r => (hole1 ++ board1).countP (fun c => decide (c.rank = r))) :=
      rfl
    rw [he, rank_count_sum, hlen]
  · have he : allSuits.map (fun s => (Hand.new hole1 board1).suit_map s) =
        allSuits.map (fun s => (hole1 ++ board1).countP (fun c => decide (c.suit = s))) :=
      rfl
    rw [he, suit_count_sum, hlen]

/-- Witness for C8: the wheel hand evaluated with reversed iteration
orders and a reshuffled hole/board split agrees with the canonical
evaluation. -/
theorem best_pure_function_witness :
    (allRanks.reverse.Perm allRanks) ∧ (allSuits.reverse.Perm allSuits) ∧
    (([⟨Rank.Two, Suit.Hearts⟩, ⟨Rank.Three, Suit.Clubs⟩] ++
      [⟨Rank.Two, Suit.Diamonds⟩, ⟨Rank.Five, Suit.Diamonds⟩, ⟨Rank.Ace, Suit.Hearts⟩,
       ⟨Rank.Five, Suit.Clubs⟩, ⟨Rank.Four, Suit.Clubs⟩] : List Card).Perm
      ([⟨Rank.Ace, Suit.Hearts⟩, ⟨Rank.Five, Suit.Clubs⟩] ++
       [⟨Rank.Four, Suit.Clubs⟩, ⟨Rank.Two, Suit.Hearts⟩, ⟨Rank.Three, Suit.Clubs⟩,
        ⟨Rank.Two, Suit.Diamonds⟩, ⟨Rank.Five, Suit.Diamonds⟩])) ∧
    (([⟨Rank.Two, Suit.Hearts⟩, ⟨Rank.Three, Suit.Clubs⟩] ++
      [⟨Rank.Two, Suit.Diamonds⟩, ⟨Rank.Five, Suit.Diamonds⟩, ⟨Rank.Ace, Suit.Hearts⟩,
       ⟨Rank.Five, Suit.Clubs⟩, ⟨Rank.Four, Suit.Clubs⟩] : List Card).length = 7) ∧
    ((Hand.new [⟨Rank.Two, Suit.Hearts⟩, ⟨Rank.Three, Suit.Clubs⟩]
      [⟨Rank.Two, Suit.Diamonds⟩, ⟨Rank.Five, Suit.Diamonds⟩, ⟨Rank.Ace, Suit.Hearts⟩,
       ⟨Rank.Five, Suit.Clubs⟩, ⟨Rank.Four, Suit.Clubs⟩]).bestWith
        allRanks.reverse allSuits.reverse =
     (Hand.new [⟨Rank.Ace, Suit.Hearts⟩, ⟨Rank.Five, Suit.Clubs⟩]
      [⟨Rank.Four, Suit.Clubs⟩, ⟨Rank.Two, Suit.Hearts⟩, ⟨Rank.Three, Suit.Clubs⟩,
       ⟨Rank.Two, Suit.Diamonds⟩, ⟨Rank.Five, Suit.Diamonds⟩]).bestWith
        allRanks allSuits) :=
  ⟨by decide, by decide, by decide, by decide,
   best_pure_function allRanks.reverse allSuits.reverse
     [⟨Rank.Two, Suit.Hearts⟩, ⟨Rank.Three, Suit.Clubs⟩]
     [⟨Rank.Two, Suit.Diamonds⟩, ⟨Rank.Five, Suit.Diamonds⟩, ⟨Rank.Ace, Suit.Hearts⟩,
      ⟨Rank.Five, Suit.Clubs⟩, ⟨Rank.Four, Suit.Clubs⟩]
     [⟨Rank.Ace, Suit.Hearts⟩, ⟨Rank.Five, Suit.Clubs⟩]
     [⟨Rank.Four, Suit.Clubs⟩, ⟨Rank.Two, Suit.Hearts⟩, ⟨Rank.Three, Suit.Clubs⟩,
      ⟨Rank.Two, Suit.Diamonds⟩, ⟨Rank.Five, Suit.Diamonds⟩]
     (by decide) (by decide) (by decide) (by decide)⟩
